import Mathlib

/-!
Verification of the playground utility code (sample.cpp / sample.c / sample.h):
the generic two-argument maximum, the sort-and-deduplicate sequence pipeline
`process_vector`, the iterative `power` function, the array statistics
`find_max` / `find_min`, and the rectangle `calculate_area`.

Functions whose bodies appear in the sources are translated directly; the
array-statistics and geometry functions are only declared in `sample.h` with
no definition in the sources, so they are modelled from the specification.
-/

namespace sample

/-- Embeds `template <typename T> T max(T a, T b) { return (a > b) ? a : b; }`
from sample.cpp over any linearly ordered type. -/
def max {T : Type} [LinearOrder T] (a b : T) : T :=
  if a > b then a else b

/-- Embeds the scanning part of `std::unique`: `x` is the last element kept so
far; elements equal to the last kept element are dropped, a different element
is kept and becomes the new reference. -/
def unique_scan (x : Int) : List Int → List Int
  | [] => []
  | y :: ys => if y = x then unique_scan x ys else y :: unique_scan y ys

/-- Embeds `std::unique(vec.begin(), vec.end())` followed by `vec.erase(...)`:
removes consecutive duplicate elements, keeping the first of each run. -/
def unique : List Int → List Int
  | [] => []
  | x :: xs => x :: unique_scan x xs

/-- Embeds `process_vector` from sample.cpp: `std::sort` (ascending) followed
by `std::unique` + `erase`.  `std::sort`'s algorithm is unspecified, so any
correct comparison sort models it; we use `List.insertionSort`. -/
def process_vector (vec : List Int) : List Int :=
  unique (vec.insertionSort (· ≤ ·))

/-- Embeds the accumulation loop of `math::advanced::power`:
`result = 1.0; for (int i = 0; i < exp; i++) result *= base;`
after `n` iterations the accumulator holds this value.  The C++ accumulator
is an IEEE-754 `double` whose multiplications round, while this model
multiplies exact rationals; the two agree bit-for-bit only on paths that
perform no multiplication (zero iterations), which is the only behaviour
proved from this definition below. -/
def powerLoop (base : ℚ) : Nat → ℚ
  | 0 => 1
  | n + 1 => powerLoop base n * base

/-- Embeds `math::advanced::power(double base, int exp)` from sample.cpp.
The loop `for (int i = 0; i < exp; i++)` runs `exp` times when `exp ≥ 0` and
zero times when `exp < 0`, which `Int.toNat` captures exactly.  On the
zero-iteration path the returned initial `1.0` involves no `double`
arithmetic, so there the exact-rational model agrees with the program
exactly; for positive exponents the program's rounded `double`
multiplications are not captured by this model. -/
def power (base : ℚ) (e : Int) : ℚ :=
  powerLoop base e.toNat

/-- The error signalled by the array statistics on empty input (spec §7). -/
inductive EmptyInputError : Type
  | emptyInput : EmptyInputError
deriving DecidableEq

/-- Modelled from the spec: `find_max` is declared in sample.h but its body is
not in the sources.  Spec §4.2: linear scan over all elements returning the
maximum; an empty buffer signals an EmptyInputError rather than a sentinel. -/
def find_max : List Int → Except EmptyInputError Int
  | [] => .error .emptyInput
  | x :: xs => .ok (xs.foldl (fun m y => if y > m then y else m) x)

/-- Modelled from the spec: `find_min` is declared in sample.h but its body is
not in the sources.  Spec §4.2: linear scan over all elements returning the
minimum; an empty buffer signals an EmptyInputError rather than a sentinel. -/
def find_min : List Int → Except EmptyInputError Int
  | [] => .error .emptyInput
  | x :: xs => .ok (xs.foldl (fun m y => if y < m then y else m) x)

/-- Embeds `struct Point { int x; int y; }` from sample.h. -/
structure Point where
  x : Int
  y : Int
deriving DecidableEq

/-- Embeds `struct Rectangle { struct Point top_left; struct Point
bottom_right; }` from sample.h. -/
structure Rectangle where
  top_left : Point
  bottom_right : Point
deriving DecidableEq

/-- Modelled from the spec: `calculate_area` is declared in sample.h but its
body is not in the sources.  Spec §4.7: `|bottom_right.x - top_left.x| *
|bottom_right.y - top_left.y|`. -/
def calculate_area (rect : Rectangle) : Int :=
  |rect.bottom_right.x - rect.top_left.x| * |rect.bottom_right.y - rect.top_left.y|

end sample

namespace sample

/-- Membership through the `std::unique` scan: prepending the last kept
element, the scan neither loses nor invents values. -/
lemma mem_cons_unique_scan (a : Int) :
    ∀ (ys : List Int) (x : Int), a ∈ x :: unique_scan x ys ↔ a ∈ x :: ys := by
  intro ys
  induction ys with
  | nil => intro x; rfl
  | cons y ys ih =>
    intro x
    by_cases hyx : y = x
    · subst hyx
      rw [unique_scan, if_pos rfl, ih y]
      simp [List.mem_cons]
    · rw [unique_scan, if_neg hyx]
      simp only [List.mem_cons]
      have h := ih y
      simp only [List.mem_cons] at h
      tauto

/-- `unique` preserves the set of values of a list. -/
lemma mem_unique (a : Int) (l : List Int) : a ∈ unique l ↔ a ∈ l := by
  cases l with
  | nil => rfl
  | cons x xs => exact mem_cons_unique_scan a xs x

/-- On a `≤`-sorted list headed by the last kept element, the `std::unique`
scan produces a strictly ascending list. -/
lemma sorted_lt_cons_unique_scan :
    ∀ (ys : List Int) (x : Int), List.Sorted (· ≤ ·) (x :: ys) →
      List.Sorted (· < ·) (x :: unique_scan x ys) := by
  intro ys
  induction ys with
  | nil => intro x _; simp [unique_scan]
  | cons y ys ih =>
    intro x h
    rw [List.sorted_cons] at h
    obtain ⟨hx, hsorted⟩ := h
    by_cases hyx : y = x
    · subst hyx
      rw [unique_scan, if_pos rfl]
      refine ih y ?_
      rw [List.sorted_cons]
      refine ⟨fun b hb => ?_, hsorted.of_cons⟩
      exact List.rel_of_sorted_cons hsorted b hb
    · rw [unique_scan, if_neg hyx]
      have hy : List.Sorted (· < ·) (y :: unique_scan y ys) := ih y hsorted
      rw [List.sorted_cons]
      refine ⟨fun b hb => ?_, hy⟩
      have hxy : x < y :=
        lt_of_le_of_ne (hx y (List.mem_cons_self y ys)) (fun h => hyx h.symm)
      rcases List.mem_cons.mp hb with hb | hb
      · exact hb ▸ hxy
      · exact lt_trans hxy (List.rel_of_sorted_cons hy b hb)

/-- `unique` of a `≤`-sorted list is strictly ascending. -/
lemma sorted_lt_unique (l : List Int) (h : List.Sorted (· ≤ ·) l) :
    List.Sorted (· < ·) (unique l) := by
  cases l with
  | nil => simp [unique]
  | cons x xs => exact sorted_lt_cons_unique_scan xs x h

/-- The output of `process_vector` is strictly ascending. -/
lemma process_vector_sorted_lt (v : List Int) :
    List.Sorted (· < ·) (process_vector v) :=
  sorted_lt_unique _ (List.sorted_insertionSort _ v)

/-- `process_vector` preserves the set of values of its input. -/
lemma mem_process_vector (a : Int) (v : List Int) :
    a ∈ process_vector v ↔ a ∈ v := by
  rw [process_vector, mem_unique]
  exact (List.perm_insertionSort _ v).mem_iff

/-- The `std::unique` scan leaves a strictly ascending tail untouched. -/
lemma unique_scan_eq_self :
    ∀ (ys : List Int) (x : Int), List.Sorted (· < ·) (x :: ys) →
      unique_scan x ys = ys := by
  intro ys
  induction ys with
  | nil => intro x _; rfl
  | cons y ys ih =>
    intro x h
    rw [List.sorted_cons] at h
    obtain ⟨hx, hsorted⟩ := h
    have hyx : y ≠ x := ne_of_gt (hx y (List.mem_cons_self y ys))
    rw [unique_scan, if_neg hyx, ih y hsorted]

/-- `unique` fixes strictly ascending lists. -/
lemma unique_eq_self (l : List Int) (h : List.Sorted (· < ·) l) :
    unique l = l := by
  cases l with
  | nil => rfl
  | cons x xs => rw [unique, unique_scan_eq_self xs x h]

/-- C1: after `process_vector`, the surviving sequence is strictly ascending:
each element is strictly less than the next. -/
theorem process_vector_strict_ascending (B : List Int) (i : Nat)
    (h : i + 1 < (process_vector B).length) :
    (process_vector B).get ⟨i, Nat.lt_of_succ_lt h⟩ <
      (process_vector B).get ⟨i + 1, h⟩ :=
  (process_vector_sorted_lt B).rel_get_of_lt (Nat.lt_succ_self i)

/-- Witness for C1: at the concrete input [3,1,3] and position 0 the strict
ascent holds. -/
theorem process_vector_strict_ascending_witness :
    0 + 1 < (process_vector [3, 1, 3]).length ∧
      (process_vector [3, 1, 3]).get ⟨0, by decide⟩ <
        (process_vector [3, 1, 3]).get ⟨1, by decide⟩ :=
  ⟨by decide, process_vector_strict_ascending [3, 1, 3] 0 (by decide)⟩

/-- C2: `process_vector` outputs exactly the distinct values of its input:
membership is preserved both ways, and each input value occurs exactly once
in the output. -/
theorem process_vector_distinct (B : List Int) :
    (∀ x : Int, x ∈ process_vector B ↔ x ∈ B) ∧
      ∀ x : Int, x ∈ B → (process_vector B).count x = 1 := by
  refine ⟨fun x => mem_process_vector x B, fun x hx => ?_⟩
  exact List.count_eq_one_of_mem (process_vector_sorted_lt B).nodup
    ((mem_process_vector x B).mpr hx)

/-- Witness for C2: at the concrete input [5,5,2], 5 is a member of the
output and occurs exactly once. -/
theorem process_vector_distinct_witness :
    ((5 : Int) ∈ process_vector [5, 5, 2] ↔ (5 : Int) ∈ [5, 5, 2]) ∧
      (process_vector [5, 5, 2]).count 5 = 1 :=
  ⟨(process_vector_distinct [5, 5, 2]).1 5,
    (process_vector_distinct [5, 5, 2]).2 5 (by decide)⟩

/-- C9: `process_vector` is idempotent: applying it twice yields the same
contents and length as applying it once. -/
theorem process_vector_idempotent (v : List Int) :
    process_vector (process_vector v) = process_vector v := by
  have hs := process_vector_sorted_lt v
  rw [process_vector, hs.le_of_lt.insertionSort_eq, unique_eq_self _ hs]

/-- C3: for the input [5,2,8,2,9,1,5,3], `process_vector` produces
[1,2,3,5,8,9] with logical length 6. -/
theorem process_vector_concrete :
    process_vector [5, 2, 8, 2, 9, 1, 5, 3] = [1, 2, 3, 5, 8, 9] ∧
      (process_vector [5, 2, 8, 2, 9, 1, 5, 3]).length = 6 := by
  decide

/-- C10: `process_vector` applied to the empty vector succeeds and yields the
empty vector, of logical length 0. -/
theorem process_vector_empty :
    process_vector [] = [] ∧ (process_vector []).length = 0 := by
  decide

/-- C4: `max` returns its first argument when it is greater than or equal to
the second, its second argument otherwise; at a tie the returned value is the
first argument. -/
theorem max_spec {T : Type} [LinearOrder T] (a b : T) :
    (a ≥ b → max a b = a) ∧ (¬a ≥ b → max a b = b) ∧ (a = b → max a b = a) := by
  refine ⟨fun h => ?_, fun h => ?_, fun h => ?_⟩
  · by_cases hgt : a > b
    · rw [max, if_pos hgt]
    · rw [max, if_neg hgt]
      exact le_antisymm h (not_lt.mp hgt)
  · rw [max, if_neg (fun hgt => h (le_of_lt hgt))]
  · subst h
    rw [max, if_neg (lt_irrefl a)]

/-- Witness for C4: `max(10, 20) = 20` and `max(5, 5) = 5` over the integers. -/
theorem max_spec_witness :
    sample.max (10 : Int) 20 = 20 ∧ sample.max (5 : Int) 5 = 5 :=
  ⟨(max_spec 10 20).2.1 (by decide), (max_spec 5 5).2.2 rfl⟩

/-- C8: for every negative exponent the loop body never runs, so `power`
returns 1. -/
theorem power_neg (base : ℚ) (e : Int) (h : e < 0) : power base e = 1 := by
  rw [power, Int.toNat_of_nonpos (le_of_lt h)]
  rfl

/-- Witness for C8: `power 2 (-3) = 1`. -/
theorem power_neg_witness : power 2 (-3) = 1 :=
  power_neg 2 (-3) (by decide)

/-- The fold of the maximum scan produces its starting accumulator or a list
element, is at least the starting accumulator, and dominates every element. -/
lemma foldl_max_scan :
    ∀ (xs : List Int) (m : Int),
      (xs.foldl (fun m y => if y > m then y else m) m = m ∨
        xs.foldl (fun m y => if y > m then y else m) m ∈ xs) ∧
      m ≤ xs.foldl (fun m y => if y > m then y else m) m ∧
      ∀ x ∈ xs, x ≤ xs.foldl (fun m y => if y > m then y else m) m := by
  intro xs
  induction xs with
  | nil => exact fun m => ⟨Or.inl rfl, le_refl m, fun x hx => absurd hx (List.not_mem_nil x)⟩
  | cons y ys ih =>
    intro m
    rw [List.foldl_cons]
    obtain ⟨hmem, hacc, hall⟩ := ih (if y > m then y else m)
    have hm : m ≤ if y > m then y else m := by
      by_cases hgt : y > m
      · rw [if_pos hgt]; exact le_of_lt hgt
      · rw [if_neg hgt]
    have hy : y ≤ if y > m then y else m := by
      by_cases hgt : y > m
      · rw [if_pos hgt]
      · rw [if_neg hgt]; exact not_lt.mp hgt
    refine ⟨?_, le_trans hm hacc, fun x hx => ?_⟩
    · rcases hmem with hmem | hmem
      · by_cases hgt : y > m
        · rw [if_pos hgt] at hmem ⊢
          rw [hmem]
          exact Or.inr (List.mem_cons_self y ys)
        · rw [if_neg hgt] at hmem ⊢
          exact Or.inl hmem
      · exact Or.inr (List.mem_cons_of_mem y hmem)
    · rcases List.mem_cons.mp hx with hx | hx
      · rw [hx]
        exact le_trans hy hacc
      · exact hall x hx

/-- The fold of the minimum scan produces its starting accumulator or a list
element, is at most the starting accumulator, and is below every element. -/
lemma foldl_min_scan :
    ∀ (xs : List Int) (m : Int),
      (xs.foldl (fun m y => if y < m then y else m) m = m ∨
        xs.foldl (fun m y => if y < m then y else m) m ∈ xs) ∧
      xs.foldl (fun m y => if y < m then y else m) m ≤ m ∧
      ∀ x ∈ xs, xs.foldl (fun m y => if y < m then y else m) m ≤ x := by
  intro xs
  induction xs with
  | nil => exact fun m => ⟨Or.inl rfl, le_refl m, fun x hx => absurd hx (List.not_mem_nil x)⟩
  | cons y ys ih =>
    intro m
    rw [List.foldl_cons]
    obtain ⟨hmem, hacc, hall⟩ := ih (if y < m then y else m)
    have hm : (if y < m then y else m) ≤ m := by
      by_cases hlt : y < m
      · rw [if_pos hlt]; exact le_of_lt hlt
      · rw [if_neg hlt]
    have hy : (if y < m then y else m) ≤ y := by
      by_cases hlt : y < m
      · rw [if_pos hlt]
      · rw [if_neg hlt]; exact not_lt.mp hlt
    refine ⟨?_, le_trans hacc hm, fun x hx => ?_⟩
    · rcases hmem with hmem | hmem
      · by_cases hlt : y < m
        · rw [if_pos hlt] at hmem ⊢
          rw [hmem]
          exact Or.inr (List.mem_cons_self y ys)
        · rw [if_neg hlt] at hmem ⊢
          exact Or.inl hmem
      · exact Or.inr (List.mem_cons_of_mem y hmem)
    · rcases List.mem_cons.mp hx with hx | hx
      · rw [hx]
        exact le_trans hacc hy
      · exact hall x hx

/-- C6: on an empty buffer `find_max` and `find_min` signal an
EmptyInputError; on a non-empty buffer they return an element of the buffer
that is the maximum (respectively minimum). -/
theorem find_max_find_min_spec :
    find_max [] = Except.error EmptyInputError.emptyInput ∧
      find_min [] = Except.error EmptyInputError.emptyInput ∧
      (∀ l : List Int, l ≠ [] →
        ∃ m, find_max l = Except.ok m ∧ m ∈ l ∧ ∀ x ∈ l, x ≤ m) ∧
      (∀ l : List Int, l ≠ [] →
        ∃ m, find_min l = Except.ok m ∧ m ∈ l ∧ ∀ x ∈ l, m ≤ x) := by
  refine ⟨rfl, rfl, fun l hl => ?_, fun l hl => ?_⟩
  · match l with
    | [] => exact absurd rfl hl
    | x :: xs =>
      obtain ⟨hmem, hacc, hall⟩ := foldl_max_scan xs x
      refine ⟨_, rfl, ?_, fun z hz => ?_⟩
      · rcases hmem with hmem | hmem
        · rw [hmem]
          exact List.mem_cons_self x xs
        · exact List.mem_cons_of_mem x hmem
      · rcases List.mem_cons.mp hz with hz | hz
        · rw [hz]
          exact hacc
        · exact hall z hz
  · match l with
    | [] => exact absurd rfl hl
    | x :: xs =>
      obtain ⟨hmem, hacc, hall⟩ := foldl_min_scan xs x
      refine ⟨_, rfl, ?_, fun z hz => ?_⟩
      · rcases hmem with hmem | hmem
        · rw [hmem]
          exact List.mem_cons_self x xs
        · exact List.mem_cons_of_mem x hmem
      · rcases List.mem_cons.mp hz with hz | hz
        · rw [hz]
          exact hacc
        · exact hall z hz

/-- Witness for C6: at the concrete buffer [3,7,2] a maximum element is
returned. -/
theorem find_max_find_min_spec_witness :
    ∃ m, find_max [3, 7, 2] = Except.ok m ∧ m ∈ [3, 7, 2] ∧
      ∀ x ∈ [3, 7, 2], x ≤ m :=
  find_max_find_min_spec.2.2.1 [3, 7, 2] (by decide)

/-- C7: `calculate_area` equals the product of the absolute axis spans, is
non-negative for every rectangle, and gives 12 on the rectangle with corners
(0,0) and (4,3). -/
theorem calculate_area_spec (r : Rectangle) :
    calculate_area r =
        |r.bottom_right.x - r.top_left.x| * |r.bottom_right.y - r.top_left.y| ∧
      0 ≤ calculate_area r ∧
      calculate_area ⟨⟨0, 0⟩, ⟨4, 3⟩⟩ = 12 :=
  ⟨rfl, mul_nonneg (abs_nonneg _) (abs_nonneg _), by decide⟩

end sample
